import Mathlib

/-!
Shallow embedding of the `nix-jetbrains-plugins` generator
(`src/generator/src/plugins.rs`, `src/generator/src/ides.rs`)
together with theorems settling the specification claims.

Maps (`BTreeMap` / `HashMap`) are modelled as association lists,
JSON (de)serialization of a table is modelled as the identity on the
table, and the network / subprocess environment of `get_db_entry` is
modelled by explicit oracle parameters.
-/

namespace NixJbPlugins

/-! ## Version comparison (model of the `version_compare` crate as used
by `supported_version`): a version is a dotted list of segments, each
segment numeric or textual; comparison is segmentwise, numeric segments
numerically, trailing zero segments are insignificant. -/

inductive VPart where
  | num (n : Nat)
  | text (s : List Char)
deriving DecidableEq, Repr

def numCmp (a b : Nat) : Ordering :=
  if a < b then .lt else if b < a then .gt else .eq

def charCmp (a b : Char) : Ordering := numCmp a.toNat b.toNat

def textCmp : List Char → List Char → Ordering
  | [], [] => .eq
  | [], _ :: _ => .lt
  | _ :: _, [] => .gt
  | a :: ta, b :: tb =>
    match charCmp a b with
    | .eq => textCmp ta tb
    | o => o

def partCmp : VPart → VPart → Ordering
  | .num a, .num b => numCmp a b
  | .text a, .text b => textCmp a b
  | .num _, .text _ => .gt
  | .text _, .num _ => .lt

/-- Ordering contributed by a remaining suffix of segments on one side:
trailing zero segments are neutral, anything else makes that side bigger. -/
def restCmp : List VPart → Ordering
  | [] => .eq
  | .num 0 :: r => restCmp r
  | .num (_ + 1) :: _ => .gt
  | .text _ :: _ => .gt

def verCmp : List VPart → List VPart → Ordering
  | [], [] => .eq
  | [], r => (restCmp r).swap
  | l, [] => restCmp l
  | x :: xs, y :: ys =>
    match partCmp x y with
    | .eq => verCmp xs ys
    | o => o

/-- Specification-level less-or-equal on versions. -/
def verLe (a b : List VPart) : Bool :=
  match verCmp a b with
  | .gt => false
  | _ => true

/-! ### Parsing version strings -/

def digitsVal (l : List Char) : Nat :=
  l.foldl (fun n c => n * 10 + (c.toNat - 48)) 0

def splitSep (sep : Char) : List Char → List (List Char)
  | [] => [[]]
  | c :: cs =>
    match splitSep sep cs with
    | [] => [[c]]
    | h :: t => if c = sep then [] :: h :: t else (c :: h) :: t

def segToPart (s : List Char) : VPart :=
  if s ≠ [] ∧ s.all (·.isDigit) then .num (digitsVal s) else .text s

/-- Model of `version_compare::Version::from` on the dotted build-number
strings this program feeds it. -/
def parseVersion (l : List Char) : List VPart :=
  (splitSep '.' l).map segToPart

/-- Model of Rust `str::replace` (replace every non-overlapping occurrence
of `pat`, scanning left to right). The fuel argument is bounded by the
length of the string, which every step strictly consumes. -/
def replaceGo (pat rep : List Char) : Nat → List Char → List Char
  | _, [] => []
  | 0, l => l
  | Nat.succ n, c :: cs =>
    if pat ≠ [] ∧ pat.isPrefixOf (c :: cs) then
      rep ++ replaceGo pat rep n ((c :: cs).drop pat.length)
    else
      c :: replaceGo pat rep n cs

def replaceAllL (l pat rep : List Char) : List Char :=
  replaceGo pat rep l.length l

/-! ## IDE identities (`src/generator/src/ides.rs`) -/

inductive IdeProduct where
  | IntelliJUltimate
  | IntelliJCommunity
  | PhpStorm
  | WebStorm
  | PyCharmProfessional
  | PyCharmCommunity
  | RubyMine
  | CLion
  | GoLand
  | DataGrip
  | DataSpell
  | Rider
  | AndroidStudio
  | RustRover
  | Aqua
  | Writerside
  | Mps
deriving DecidableEq, Repr

def IdeProduct.nix_key : IdeProduct → String
  | .IntelliJUltimate => "idea-ultimate"
  | .IntelliJCommunity => "idea-community"
  | .PhpStorm => "phpstorm"
  | .WebStorm => "webstorm"
  | .PyCharmProfessional => "pycharm-professional"
  | .PyCharmCommunity => "pycharm-community"
  | .RubyMine => "ruby-mine"
  | .CLion => "clion"
  | .GoLand => "goland"
  | .DataGrip => "datagrip"
  | .DataSpell => "dataspell"
  | .Rider => "rider"
  | .AndroidStudio => "android-studio"
  | .RustRover => "rust-rover"
  | .Aqua => "aqua"
  | .Writerside => "writerside"
  | .Mps => "mps"

def IdeProduct.try_from_nix_key (code : String) : Option IdeProduct :=
  match code with
  | "idea-ultimate" => some .IntelliJUltimate
  | "idea-community" => some .IntelliJCommunity
  | "phpstorm" => some .PhpStorm
  | "webstorm" => some .WebStorm
  | "pycharm-professional" => some .PyCharmProfessional
  | "pycharm-community" => some .PyCharmCommunity
  | "ruby-mine" => some .RubyMine
  | "clion" => some .CLion
  | "goland" => some .GoLand
  | "datagrip" => some .DataGrip
  | "dataspell" => some .DataSpell
  | "rider" => some .Rider
  | "android-studio" => some .AndroidStudio
  | "rust-rover" => some .RustRover
  | "aqua" => some .Aqua
  | "writerside" => some .Writerside
  | "mps" => some .Mps
  | _ => none

def PROCESSED_VERSION_PREFIXES : List String :=
  ["2027.", "2026.", "2025.", "2024.3."]

/-- Filter on IDE release versions: keep only the recent release series. -/
def allowed_build_version (version : String) : Bool :=
  PROCESSED_VERSION_PREFIXES.any (fun a => a.data.isPrefixOf version.data)

/-- `IdeVersion` with the derived (all-field) equality, exactly as the
Rust `#[derive(PartialEq, Eq, Hash)]` produces it. -/
structure IdeVersion where
  ide : IdeProduct
  version : String
  build_number : String
deriving DecidableEq, Repr

/-! ## Plugin metadata (`plugins.rs`) -/

structure PluginDetailsIdeaVersion where
  since_build : Option String
  until_build : Option String
deriving DecidableEq, Repr

structure PluginDetailsIdeaPlugin where
  version : String
  idea_version : PluginDetailsIdeaVersion
deriving DecidableEq, Repr

/-- Does the build number fall strictly below the (wildcard-lowered)
`since` bound?  Mirrors `build_version < Version::from(&min.replace(".*", ".0")).unwrap()`. -/
def buildBelowSince (build : List VPart) : Option String → Bool
  | none => false
  | some minb =>
    match verCmp build (parseVersion (replaceAllL minb.data ".*".data ".0".data)) with
    | .lt => true
    | _ => false

/-- Does the build number lie strictly above the (wildcard-raised)
`until` bound?  Mirrors `build_version > Version::from(&max.replace(".*", ".99999999")).unwrap()`. -/
def buildAboveUntil (build : List VPart) : Option String → Bool
  | none => false
  | some maxb =>
    match verCmp build (parseVersion (replaceAllL maxb.data ".*".data ".99999999".data)) with
    | .gt => true
    | _ => false

def supported_version_go (build : List VPart) :
    List PluginDetailsIdeaPlugin → Option PluginDetailsIdeaPlugin
  | [] => none
  | v :: rest =>
    if buildBelowSince build v.idea_version.since_build then
      supported_version_go build rest
    else if buildAboveUntil build v.idea_version.until_build then
      supported_version_go build rest
    else
      some v

/-- The Version Compatibility Resolver (`supported_version` in `plugins.rs`):
scan the candidate releases in the order given and return the first one
whose bounds do not exclude the IDE's build number. -/
def supported_version (ide : IdeVersion) (versions : List PluginDetailsIdeaPlugin) :
    Option PluginDetailsIdeaPlugin :=
  supported_version_go (parseVersion ide.build_number.data) versions

/-- Specification-side admission predicate, written following the spec's
words: the release's since bound (if present) is less than or equal to the
IDE's build number and its until bound (if present) is greater than or
equal to it, an absent end being unbounded. -/
def resolveSpecAdmits (ide : IdeVersion) (v : PluginDetailsIdeaPlugin) : Bool :=
  (match v.idea_version.since_build with
   | none => true
   | some m =>
     verLe (parseVersion (replaceAllL m.data ".*".data ".0".data))
       (parseVersion ide.build_number.data)) &&
  (match v.idea_version.until_build with
   | none => true
   | some u =>
     verLe (parseVersion ide.build_number.data)
       (parseVersion (replaceAllL u.data ".*".data ".99999999".data)))

/-! ## The plugin database (`plugins.rs`): maps as association lists -/

/-- Key of one published plugin release: `PluginVersion::new`
concatenates the plugin id and the version around the separator. -/
structure PluginVersion where
  raw : String
deriving DecidableEq, Repr

def PluginVersion.SEPARATOR : String := "/--/"

def PluginVersion.new (name version : String) : PluginVersion :=
  ⟨name ++ PluginVersion.SEPARATOR ++ version⟩

structure PluginDbEntry where
  path : String
  hash : String
deriving DecidableEq, Repr

/-- First-match lookup in an association list (models map lookup). -/
def lookupA {α β : Type} [DecidableEq α] : List (α × β) → α → Option β
  | [], _ => none
  | (k, v) :: r, k' => if k' = k then some v else lookupA r k'

/-- Models `BTreeMap::entry(k).or_insert_with(v)`: keep the present value,
insert only when the key is absent. -/
def insertKeep {α β : Type} [DecidableEq α] (k : α) (v : β) (m : List (α × β)) :
    List (α × β) :=
  match lookupA m k with
  | some _ => m
  | none => (k, v) :: m

/-- Models `BTreeMap::insert` / `HashMap::insert`: overwrite. -/
def insertOver {α β : Type} [DecidableEq α] (k : α) (v : β) (m : List (α × β)) :
    List (α × β) :=
  (k, v) :: m.filter (fun q => decide (q.1 ≠ k))

def countKey {α β : Type} [DecidableEq α] (m : List (α × β)) (k : α) : Nat :=
  m.countP (fun q => decide (q.1 = k))

abbrev EntryMap := List (PluginVersion × PluginDbEntry)
abbrev IdeTable := List (String × String)
abbrev IdeMap := List (IdeVersion × IdeTable)

structure PluginDb where
  all_plugins : EntryMap
  ides : IdeMap
deriving DecidableEq, Repr

/-- `PluginDb::insert`: ensure the per-IDE table exists, insert the entry
into `all_plugins` only if its key is absent, and always write the
`name → version` mapping into the per-IDE table. -/
def PluginDb.insert (db : PluginDb) (ideversion : IdeVersion)
    (name version : String) (entry : PluginDbEntry) : PluginDb :=
  let version_entry := (lookupA db.ides ideversion).getD []
  let version_entry' := insertOver name version version_entry
  { all_plugins := insertKeep (PluginVersion.new name version) entry db.all_plugins,
    ides := insertOver ideversion version_entry' db.ides }

/-- Looking a plugin's chosen version up through one IDE's table. -/
def lookupIde (db : PluginDb) (ide : IdeVersion) (name : String) : Option String :=
  (lookupA db.ides ide).bind (fun t => lookupA t name)

/-- The keys referenced by the union of all per-IDE tables (the
`used_keys` set built by `db_cleanup`). -/
def usedKeys (db : PluginDb) : List PluginVersion :=
  db.ides.flatMap (fun it => it.2.map (fun nv => PluginVersion.new nv.1 nv.2))

/-- `db_cleanup`: restrict `all_plugins` to the keys referenced by some
per-IDE table. -/
def db_cleanup (db : PluginDb) : PluginDb :=
  { db with
    all_plugins := db.all_plugins.filter (fun kv => decide (kv.1 ∈ usedKeys db)) }

/-- Referential integrity: every `(name, version)` row of every per-IDE
table has its key present in `all_plugins`. -/
def refIntB (db : PluginDb) : Bool :=
  db.ides.all (fun it =>
    it.2.all (fun nv =>
      decide (lookupA db.all_plugins (PluginVersion.new nv.1 nv.2) ≠ none)))

/-! ## Persistence (`db_save`, `db_load`, `db_load_full`).
A saved directory is modelled as the `all_plugins.json` table plus the
list of `(file name, table)` pairs under `ides/`; JSON encoding of a
table is modelled as the identity. -/

def IdeVersion.to_json_filename (iv : IdeVersion) : String :=
  iv.ide.nix_key ++ "-" ++ iv.version ++ ".json"

def stripSuffixL (l suf : List Char) : Option (List Char) :=
  if suf.length ≤ l.length ∧ l.drop (l.length - suf.length) = suf then
    some (l.take (l.length - suf.length))
  else none

def splitFirstL (sep : Char) : List Char → Option (List Char × List Char)
  | [] => none
  | c :: cs =>
    if c = sep then some ([], cs)
    else (splitFirstL sep cs).map (fun p => (c :: p.1, p.2))

/-- Model of Rust `str::rsplit_once`: split at the last occurrence of
`sep`, returning (part before, part after). -/
def rsplitOnceL (sep : Char) (l : List Char) : Option (List Char × List Char) :=
  (splitFirstL sep l.reverse).map (fun p => (p.2.reverse, p.1.reverse))

/-- `IdeVersion::from_json_filename`: strip the `.json` suffix, split at
the last `-`, parse the product key; the build number is left empty. -/
def IdeVersion.from_json_filename (filename : String) : Option IdeVersion :=
  match stripSuffixL filename.data ".json".data with
  | none => none
  | some rest =>
    match rsplitOnceL '-' rest with
    | none => none
    | some pv =>
      match IdeProduct.try_from_nix_key (String.mk pv.1) with
      | none => none
      | some p => some ⟨p, String.mk pv.2, ""⟩

structure SavedDb where
  all_plugins_json : EntryMap
  ide_files : List (String × IdeTable)
deriving DecidableEq, Repr

def db_save (db : PluginDb) : SavedDb :=
  ⟨db.all_plugins, db.ides.map (fun it => (it.1.to_json_filename, it.2))⟩

/-- `db_load`: only `all_plugins.json`; the IDE tables stay empty. -/
def db_load (s : SavedDb) : PluginDb :=
  ⟨s.all_plugins_json, []⟩

/-- One step of `db_load_full`'s directory scan: skip a file whose name
does not parse, otherwise store its table under the identity
reconstructed from the file name (the entries table is not touched). -/
def loadIdeStep (db : PluginDb) (ft : String × IdeTable) : PluginDb :=
  match IdeVersion.from_json_filename ft.1 with
  | none => db
  | some iv => { db with ides := insertOver iv ft.2 db.ides }

/-- `db_load_full`: additionally read every file of the `ides` directory. -/
def db_load_full (s : SavedDb) : PluginDb :=
  s.ide_files.foldl loadIdeStep (db_load s)

/-! ## The Content-Hash Resolver (`get_db_entry`).
The HEAD existence probe and the external hashing pipeline
(`get_nix32_hash` followed by the nix-base32 → base64 re-encoding) are
the function's only interactions with the outside world; they are
modelled as explicit parameters: `probe` is the probe's outcome and
`hasher unpack executable` is the final storage-encoded hash when the
whole hashing pipeline succeeds, `none` when any of its steps fails. -/

inductive ProbeResult where
  | notFound
  | failed (code : Nat)
  | success (finalUrl : String)
deriving DecidableEq, Repr

inductive DbEntryResult where
  | ok (entry : Option PluginDbEntry)
  | err
  | panicked
deriving DecidableEq, Repr

structure GdbOut where
  result : DbEntryResult
  fof : List PluginVersion
  probed : Bool
deriving DecidableEq, Repr

/-- Model of `Url::set_query(None)`: drop everything from the first `?`. -/
def stripQueryL (l : List Char) : List Char := l.takeWhile (· ≠ '?')

def endsWithL (l suf : List Char) : Bool := (stripSuffixL l suf).isSome

/-- Model of `str::strip_prefix`: the remainder after the leading `pre`,
or `none` when `l` does not start with `pre`. -/
def removeStartL (pre l : List Char) : Option (List Char) :=
  if pre.isPrefixOf l then some (l.drop pre.length) else none

def PREFIX_OF_ALL_URLS : String := "https://downloads.marketplace.jetbrains.com/"

/-- `get_db_entry`: consult the live database, then the 404 cache, then
probe; a 404 is cached and yields `none`, any other failure status is an
error, and on success the final URL is query-stripped, hashed (the
pipeline may fail, an error) and prefix-stripped (`expect`: a panic when
the prefix is missing).  The `probed` flag records whether the network
probe was issued. -/
def get_db_entry (all_plugins : EntryMap) (fof_cache : List PluginVersion)
    (pluginkey version : String) (probe : ProbeResult)
    (hasher : Bool → Bool → Option String) : GdbOut :=
  let key := PluginVersion.new pluginkey version
  match lookupA all_plugins key with
  | some e => ⟨.ok (some e), fof_cache, false⟩
  | none =>
    if key ∈ fof_cache then ⟨.ok none, fof_cache, false⟩
    else
      match probe with
      | .notFound => ⟨.ok none, key :: fof_cache, true⟩
      | .failed _ => ⟨.err, fof_cache, true⟩
      | .success finalUrl =>
        let url := stripQueryL finalUrl.data
        let is_jar := endsWithL url ".jar".data
        match hasher (!is_jar) is_jar with
        | none => ⟨.err, fof_cache, true⟩
        | some h =>
          match removeStartL PREFIX_OF_ALL_URLS.data url with
          | none => ⟨.panicked, fof_cache, true⟩
          | some rest => ⟨.ok (some ⟨String.mk rest, h⟩), fof_cache, true⟩

/-! ## Concrete fixtures used by witnesses and spec instances -/

def exampleEntry : PluginDbEntry := ⟨"path", "hash"⟩

def c4ExampleDb : PluginDb :=
  ⟨[(PluginVersion.new "A" "1", exampleEntry),
    (PluginVersion.new "B" "1", exampleEntry),
    (PluginVersion.new "C" "1", exampleEntry)],
   [(⟨.CLion, "2025.1", "251.1"⟩, [("A", "1")])]⟩

def c8WitnessDb : PluginDb :=
  ⟨[(PluginVersion.new "p" "1", exampleEntry)],
   [(⟨.CLion, "2025.1", "251.1"⟩, [("p", "1")]),
    (⟨.GoLand, "2025.2", "252.1"⟩, [("q", "2")])]⟩

/-! ## Helper lemmas: comparison -/

theorem orderingSwapSwap : ∀ o : Ordering, o.swap.swap = o := by
  intro o; cases o <;> rfl

theorem numCmp_swap (a b : Nat) : numCmp a b = (numCmp b a).swap := by
  unfold numCmp
  by_cases h1 : a < b
  · have h2 : ¬ b < a := by omega
    simp [h1, h2, Ordering.swap]
  · by_cases h2 : b < a
    · simp [h1, h2, Ordering.swap]
    · simp [h1, h2, Ordering.swap]

theorem charCmp_swap (a b : Char) : charCmp a b = (charCmp b a).swap :=
  numCmp_swap a.toNat b.toNat

theorem textCmp_swap : ∀ l1 l2 : List Char, textCmp l1 l2 = (textCmp l2 l1).swap
  | [], [] => rfl
  | [], _ :: _ => rfl
  | _ :: _, [] => rfl
  | a :: ta, b :: tb => by
    show (match charCmp a b with | .eq => textCmp ta tb | o => o)
        = (match charCmp b a with | .eq => textCmp tb ta | o => o).swap
    rw [charCmp_swap a b]
    cases charCmp b a
    · rfl
    · exact textCmp_swap ta tb
    · rfl

theorem partCmp_swap : ∀ x y : VPart, partCmp x y = (partCmp y x).swap
  | .num a, .num b => numCmp_swap a b
  | .text a, .text b => textCmp_swap a b
  | .num _, .text _ => rfl
  | .text _, .num _ => rfl

theorem verCmp_swap : ∀ l1 l2 : List VPart, verCmp l1 l2 = (verCmp l2 l1).swap
  | [], [] => rfl
  | [], _ :: _ => rfl
  | x :: xs, [] => (orderingSwapSwap (restCmp (x :: xs))).symm
  | x :: xs, y :: ys => by
    show (match partCmp x y with | .eq => verCmp xs ys | o => o)
        = (match partCmp y x with | .eq => verCmp ys xs | o => o).swap
    rw [partCmp_swap x y]
    cases partCmp y x
    · rfl
    · exact verCmp_swap xs ys
    · rfl

theorem buildBelowSince_eq (b : List VPart) (m : String) :
    buildBelowSince b (some m)
      = !(verLe (parseVersion (replaceAllL m.data ".*".data ".0".data)) b) := by
  simp only [buildBelowSince, verLe]
  rw [verCmp_swap (parseVersion (replaceAllL m.data ".*".data ".0".data)) b]
  cases verCmp b (parseVersion (replaceAllL m.data ".*".data ".0".data)) <;> rfl

theorem buildAboveUntil_eq (b : List VPart) (u : String) :
    buildAboveUntil b (some u)
      = !(verLe b (parseVersion (replaceAllL u.data ".*".data ".99999999".data))) := by
  simp only [buildAboveUntil, verLe]
  cases verCmp b (parseVersion (replaceAllL u.data ".*".data ".99999999".data)) <;> rfl

theorem resolveSpecAdmits_eq (ide : IdeVersion) (v : PluginDetailsIdeaPlugin) :
    resolveSpecAdmits ide v
      = (!(buildBelowSince (parseVersion ide.build_number.data) v.idea_version.since_build)
          && !(buildAboveUntil (parseVersion ide.build_number.data) v.idea_version.until_build)) := by
  unfold resolveSpecAdmits
  cases hs : v.idea_version.since_build with
  | none => cases hu : v.idea_version.until_build with
    | none => rfl
    | some u => rw [buildAboveUntil_eq, Bool.not_not]; rfl
  | some m => cases hu : v.idea_version.until_build with
    | none => rw [buildBelowSince_eq, Bool.not_not]; rfl
    | some u => rw [buildBelowSince_eq, buildAboveUntil_eq, Bool.not_not, Bool.not_not]

/-! ## Claim theorems C1, C2 -/

/-- C1: for every IDE identity and every ordered candidate list, the
Version Compatibility Resolver returns the first element, in the order
given, whose since bound (if present) is ≤ the IDE's build number and
whose until bound (if present) is ≥ it, both inclusive and an absent end
unbounded; it returns `none` if no element qualifies — that is,
`supported_version` is `List.find?` of the spec's admission predicate. -/
theorem c1_resolver_first_admissible (ide : IdeVersion)
    (L : List PluginDetailsIdeaPlugin) :
    supported_version ide L = L.find? (resolveSpecAdmits ide) := by
  unfold supported_version
  induction L with
  | nil => rfl
  | cons v rest ih =>
    show (if buildBelowSince (parseVersion ide.build_number.data) v.idea_version.since_build
          then supported_version_go (parseVersion ide.build_number.data) rest
          else if buildAboveUntil (parseVersion ide.build_number.data) v.idea_version.until_build
          then supported_version_go (parseVersion ide.build_number.data) rest
          else some v) = _
    by_cases hb : buildBelowSince (parseVersion ide.build_number.data) v.idea_version.since_build = true
    · have hp : resolveSpecAdmits ide v = false := by
        rw [resolveSpecAdmits_eq, hb]; rfl
      rw [List.find?_cons_of_neg _ (by rw [hp]; exact Bool.false_ne_true), ← ih]
      simp [hb]
    · rw [Bool.not_eq_true] at hb
      by_cases ha : buildAboveUntil (parseVersion ide.build_number.data) v.idea_version.until_build = true
      · have hp : resolveSpecAdmits ide v = false := by
          rw [resolveSpecAdmits_eq, hb, ha]; rfl
        rw [List.find?_cons_of_neg _ (by rw [hp]; exact Bool.false_ne_true), ← ih]
        simp [hb, ha]
      · rw [Bool.not_eq_true] at ha
        have hp : resolveSpecAdmits ide v = true := by
          rw [resolveSpecAdmits_eq, hb, ha]; rfl
        rw [List.find?_cons_of_pos _ hp]
        simp [hb, ha]

/-- C2: wildcard bounds. A `since` of "231.*" is lowered to "231.0": it
admits the build "231.0" itself, every build not below "231.0" (so every
higher build), but not "230.9999".  An `until` of "231.*" is raised to
"231.99999999": it admits "231.99999999" itself and every build not above
it, but not "232.0". -/
theorem c2_wildcard_bounds (b b' : List VPart)
    (h1 : verCmp b (parseVersion "231.0".data) ≠ .lt)
    (h2 : verCmp b' (parseVersion "231.99999999".data) ≠ .gt) :
    buildBelowSince b (some "231.*") = false ∧
    buildBelowSince (parseVersion "231.0".data) (some "231.*") = false ∧
    buildBelowSince (parseVersion "230.9999".data) (some "231.*") = true ∧
    buildAboveUntil b' (some "231.*") = false ∧
    buildAboveUntil (parseVersion "231.99999999".data) (some "231.*") = false ∧
    buildAboveUntil (parseVersion "232.0".data) (some "231.*") = true := by
  have el : parseVersion (replaceAllL "231.*".data ".*".data ".0".data)
      = parseVersion "231.0".data := by decide
  have eu : parseVersion (replaceAllL "231.*".data ".*".data ".99999999".data)
      = parseVersion "231.99999999".data := by decide
  refine ⟨?_, ?_, ?_, ?_, ?_, ?_⟩
  · simp only [buildBelowSince]
    rw [el]
    cases h : verCmp b (parseVersion "231.0".data)
    · exact absurd h h1
    · rfl
    · rfl
  · decide
  · decide
  · simp only [buildAboveUntil]
    rw [eu]
    cases h : verCmp b' (parseVersion "231.99999999".data)
    · rfl
    · rfl
    · exact absurd h h2
  · decide
  · decide

/-- Witness for C2: instantiate both universal builds at "231.5". -/
theorem c2_wildcard_bounds_witness :
    buildBelowSince (parseVersion "231.5".data) (some "231.*") = false ∧
    buildBelowSince (parseVersion "231.0".data) (some "231.*") = false ∧
    buildBelowSince (parseVersion "230.9999".data) (some "231.*") = true ∧
    buildAboveUntil (parseVersion "231.5".data) (some "231.*") = false ∧
    buildAboveUntil (parseVersion "231.99999999".data) (some "231.*") = false ∧
    buildAboveUntil (parseVersion "232.0".data) (some "231.*") = true :=
  c2_wildcard_bounds (parseVersion "231.5".data) (parseVersion "231.5".data)
    (by decide) (by decide)

/-! ## Helper lemmas: association-list maps -/

section MapLemmas

variable {α β : Type} [DecidableEq α]

theorem lookupA_cons (a : α) (b : β) (t : List (α × β)) (k : α) :
    lookupA ((a, b) :: t) k = if k = a then some b else lookupA t k := rfl

theorem countKey_cons (a : α) (b : β) (t : List (α × β)) (k : α) :
    countKey ((a, b) :: t) k = countKey t k + if a = k then 1 else 0 := by
  unfold countKey
  rw [List.countP_cons]
  by_cases h : a = k <;> simp [h]

theorem lookupA_eq_none_iff (m : List (α × β)) (k : α) :
    lookupA m k = none ↔ countKey m k = 0 := by
  induction m with
  | nil => simp [lookupA, countKey]
  | cons p t ih =>
    obtain ⟨a, b⟩ := p
    rw [lookupA_cons, countKey_cons]
    by_cases h : k = a
    · subst h
      simp
    · have h' : ¬ a = k := fun hh => h hh.symm
      simp [h, h', ih]

theorem countKey_pos_of_lookupA (m : List (α × β)) (k : α) (t : β)
    (h : lookupA m k = some t) : 1 ≤ countKey m k := by
  by_contra hc
  have h0 : countKey m k = 0 := by omega
  rw [← lookupA_eq_none_iff] at h0
  rw [h] at h0
  exact Option.noConfusion h0

theorem lookupA_mem (m : List (α × β)) (k : α) (t : β)
    (h : lookupA m k = some t) : (k, t) ∈ m := by
  induction m with
  | nil => exact Option.noConfusion h
  | cons p r ih =>
    obtain ⟨a, b⟩ := p
    rw [lookupA_cons] at h
    by_cases he : k = a
    · rw [if_pos he] at h
      injection h with h
      subst he; subst h
      exact List.mem_cons_self _ _
    · rw [if_neg he] at h
      exact List.mem_cons_of_mem _ (ih h)

theorem insertKeep_of_some (k : α) (v t : β) (m : List (α × β))
    (h : lookupA m k = some t) : insertKeep k v m = m := by
  unfold insertKeep
  rw [h]

theorem insertKeep_of_none (k : α) (v : β) (m : List (α × β))
    (h : lookupA m k = none) : insertKeep k v m = (k, v) :: m := by
  unfold insertKeep
  rw [h]

theorem lookupA_insertKeep_self (k : α) (v : β) (m : List (α × β)) :
    lookupA (insertKeep k v m) k = some ((lookupA m k).getD v) := by
  unfold insertKeep
  cases h : lookupA m k with
  | some t => rw [h]; rfl
  | none => rw [lookupA_cons, if_pos rfl]; rfl

theorem lookupA_insertKeep_ne_none (k k' : α) (v : β) (m : List (α × β))
    (h : lookupA m k' ≠ none) : lookupA (insertKeep k v m) k' ≠ none := by
  unfold insertKeep
  cases hm : lookupA m k with
  | some t => exact h
  | none =>
    rw [lookupA_cons]
    by_cases he : k' = k
    · rw [if_pos he]; exact Option.noConfusion
    · rw [if_neg he]; exact h

theorem lookupA_filterKey (p : α → Bool) (m : List (α × β)) (k : α) :
    lookupA (m.filter (fun q => p q.1)) k = if p k = true then lookupA m k else none := by
  induction m with
  | nil => by_cases h : p k = true <;> simp [lookupA, h]
  | cons q t ih =>
    obtain ⟨a, b⟩ := q
    rw [List.filter_cons]
    by_cases hpa : p a = true
    · rw [if_pos (by simpa using hpa), lookupA_cons, lookupA_cons]
      by_cases he : k = a
      · subst he
        rw [if_pos rfl, if_pos rfl, if_pos hpa]
      · rw [if_neg he, if_neg he, ih]
    · rw [if_neg (by simpa using hpa), ih]
      by_cases he : k = a
      · subst he
        rw [if_neg hpa, if_neg hpa]
      · rw [lookupA_cons, if_neg he]

theorem lookupA_insertOver (k k' : α) (v : β) (m : List (α × β)) :
    lookupA (insertOver k v m) k' = if k' = k then some v else lookupA m k' := by
  unfold insertOver
  rw [lookupA_cons]
  by_cases he : k' = k
  · rw [if_pos he, if_pos he]
  · rw [if_neg he, if_neg he, lookupA_filterKey (fun a => decide (a ≠ k))]
    rw [if_pos (by simpa using he)]

end MapLemmas

theorem filter_idem {α : Type} (p : α → Bool) (l : List α) :
    (l.filter p).filter p = l.filter p := by
  induction l with
  | nil => rfl
  | cons a t ih =>
    rw [List.filter_cons]
    by_cases h : p a = true
    · rw [if_pos (by simpa using h), List.filter_cons, if_pos (by simpa using h), ih]
    · rw [if_neg (by simpa using h), ih]

/-! ## Claim theorems C3, C4 -/

/-- C3: `PluginDb::insert` has first-writer-wins, idempotent semantics.
For every database whose entries table holds at most one entry for the
key (the representation invariant of a map), inserting the same
`(name, version)` twice — possibly with different entries and under
different IDE identities — leaves exactly one entry for the key, namely
the first-present one, and each of the two calls writes the
`name → version` mapping into the per-IDE table of its IDE identity. -/
theorem c3_insert_first_writer_wins (db : PluginDb) (i1 i2 : IdeVersion)
    (name version : String) (e1 e2 : PluginDbEntry)
    (hrep : countKey db.all_plugins (PluginVersion.new name version) ≤ 1) :
    countKey ((db.insert i1 name version e1).insert i2 name version e2).all_plugins
        (PluginVersion.new name version) = 1 ∧
    lookupA ((db.insert i1 name version e1).insert i2 name version e2).all_plugins
        (PluginVersion.new name version)
      = some ((lookupA db.all_plugins (PluginVersion.new name version)).getD e1) ∧
    lookupIde ((db.insert i1 name version e1).insert i2 name version e2) i2 name
      = some version ∧
    lookupIde ((db.insert i1 name version e1).insert i2 name version e2) i1 name
      = some version := by
  set k := PluginVersion.new name version with hk
  have hap1 : (db.insert i1 name version e1).all_plugins = insertKeep k e1 db.all_plugins := rfl
  have hlk1 : lookupA (db.insert i1 name version e1).all_plugins k
      = some ((lookupA db.all_plugins k).getD e1) := by
    rw [hap1]; exact lookupA_insertKeep_self k e1 db.all_plugins
  have hap2 : ((db.insert i1 name version e1).insert i2 name version e2).all_plugins
      = (db.insert i1 name version e1).all_plugins := by
    show insertKeep k e2 (db.insert i1 name version e1).all_plugins = _
    exact insertKeep_of_some k e2 _ _ hlk1
  refine ⟨?_, ?_, ?_, ?_⟩
  · rw [hap2, hap1]
    cases h : lookupA db.all_plugins k with
    | none =>
      rw [insertKeep_of_none k e1 _ h, countKey_cons, if_pos rfl]
      rw [lookupA_eq_none_iff] at h
      omega
    | some e0 =>
      rw [insertKeep_of_some k e1 _ _ h]
      have := countKey_pos_of_lookupA db.all_plugins k e0 h
      omega
  · rw [hap2, hlk1]
  · show lookupIde ((db.insert i1 name version e1).insert i2 name version e2) i2 name = _
    unfold lookupIde
    have : ((db.insert i1 name version e1).insert i2 name version e2).ides
        = insertOver i2
            (insertOver name version
              ((lookupA (db.insert i1 name version e1).ides i2).getD []))
            (db.insert i1 name version e1).ides := rfl
    rw [this, lookupA_insertOver, if_pos rfl]
    show lookupA (insertOver name version _) name = some version
    rw [lookupA_insertOver, if_pos rfl]
  · unfold lookupIde
    by_cases hi : i1 = i2
    · subst hi
      have : ((db.insert i1 name version e1).insert i1 name version e2).ides
          = insertOver i1
              (insertOver name version
                ((lookupA (db.insert i1 name version e1).ides i1).getD []))
              (db.insert i1 name version e1).ides := rfl
      rw [this, lookupA_insertOver, if_pos rfl]
      show lookupA (insertOver name version _) name = some version
      rw [lookupA_insertOver, if_pos rfl]
    · have h2 : ((db.insert i1 name version e1).insert i2 name version e2).ides
          = insertOver i2
              (insertOver name version
                ((lookupA (db.insert i1 name version e1).ides i2).getD []))
              (db.insert i1 name version e1).ides := rfl
      rw [h2, lookupA_insertOver, if_neg hi]
      have h1 : (db.insert i1 name version e1).ides
          = insertOver i1
              (insertOver name version ((lookupA db.ides i1).getD []))
              db.ides := rfl
      rw [h1, lookupA_insertOver, if_pos rfl]
      show lookupA (insertOver name version _) name = some version
      rw [lookupA_insertOver, if_pos rfl]

/-- Witness for C3 at a concrete empty database. -/
theorem c3_insert_first_writer_wins_witness :
    countKey ((PluginDb.insert ⟨[], []⟩ ⟨.CLion, "2025.1", "251.1"⟩ "p" "1" ⟨"a", "b"⟩).insert
        ⟨.GoLand, "2025.2", "252.1"⟩ "p" "1" ⟨"c", "d"⟩).all_plugins
      (PluginVersion.new "p" "1") = 1 ∧
    lookupA ((PluginDb.insert ⟨[], []⟩ ⟨.CLion, "2025.1", "251.1"⟩ "p" "1" ⟨"a", "b"⟩).insert
        ⟨.GoLand, "2025.2", "252.1"⟩ "p" "1" ⟨"c", "d"⟩).all_plugins
      (PluginVersion.new "p" "1")
      = some ((lookupA (PluginDb.mk [] []).all_plugins (PluginVersion.new "p" "1")).getD ⟨"a", "b"⟩) ∧
    lookupIde ((PluginDb.insert ⟨[], []⟩ ⟨.CLion, "2025.1", "251.1"⟩ "p" "1" ⟨"a", "b"⟩).insert
        ⟨.GoLand, "2025.2", "252.1"⟩ "p" "1" ⟨"c", "d"⟩) ⟨.GoLand, "2025.2", "252.1"⟩ "p"
      = some "1" ∧
    lookupIde ((PluginDb.insert ⟨[], []⟩ ⟨.CLion, "2025.1", "251.1"⟩ "p" "1" ⟨"a", "b"⟩).insert
        ⟨.GoLand, "2025.2", "252.1"⟩ "p" "1" ⟨"c", "d"⟩) ⟨.CLion, "2025.1", "251.1"⟩ "p"
      = some "1" :=
  c3_insert_first_writer_wins ⟨[], []⟩ ⟨.CLion, "2025.1", "251.1"⟩
    ⟨.GoLand, "2025.2", "252.1"⟩ "p" "1" ⟨"a", "b"⟩ ⟨"c", "d"⟩ (by decide)

/-- C4: `db_cleanup` keeps exactly the entries whose key is referenced by
the union of the per-IDE tables (their entries unchanged), leaves the
per-IDE tables untouched, and is idempotent; on the concrete database
with entry keys A, B, C of which only A is referenced, the result keeps
exactly A. -/
theorem c4_cleanup (db : PluginDb) (k : PluginVersion) :
    lookupA (db_cleanup db).all_plugins k
      = (if k ∈ usedKeys db then lookupA db.all_plugins k else none) ∧
    (db_cleanup db).ides = db.ides ∧
    db_cleanup (db_cleanup db) = db_cleanup db ∧
    (db_cleanup c4ExampleDb).all_plugins = [(PluginVersion.new "A" "1", exampleEntry)] := by
  refine ⟨?_, rfl, ?_, by decide⟩
  · show lookupA (db.all_plugins.filter (fun kv => decide (kv.1 ∈ usedKeys db))) k = _
    rw [lookupA_filterKey (fun a => decide (a ∈ usedKeys db))]
    by_cases h : k ∈ usedKeys db
    · rw [if_pos (by simpa using h), if_pos h]
    · rw [if_neg (by simpa using h), if_neg h]
  · show PluginDb.mk
        ((db.all_plugins.filter (fun kv => decide (kv.1 ∈ usedKeys db))).filter
          (fun kv => decide (kv.1 ∈ usedKeys db)))
        db.ides
      = PluginDb.mk (db.all_plugins.filter (fun kv => decide (kv.1 ∈ usedKeys db))) db.ides
    rw [filter_idem]

/-! ## Claim C5: referential integrity -/

theorem refIntB_load_aux (E : EntryMap) :
    ∀ (files : List (String × IdeTable)) (db0 : PluginDb),
      db0.all_plugins = E → refIntB db0 = true →
      (∀ ft ∈ files, ∀ nv ∈ ft.2, lookupA E (PluginVersion.new nv.1 nv.2) ≠ none) →
      refIntB (files.foldl loadIdeStep db0) = true := by
  intro files
  induction files with
  | nil =>
    intro db0 _ h0 _
    exact h0
  | cons ft fts ih =>
    intro db0 hE h0 hf
    rw [List.foldl_cons]
    apply ih (loadIdeStep db0 ft)
    · rw [← hE]
      unfold loadIdeStep
      cases IdeVersion.from_json_filename ft.1 <;> rfl
    · unfold loadIdeStep
      cases IdeVersion.from_json_filename ft.1 with
      | none => exact h0
      | some iv =>
        rw [refIntB, List.all_eq_true]
        intro it hit
        have hit' : it = (iv, ft.2) ∨ it ∈ db0.ides := by
          rcases List.mem_cons.1 hit with h1 | h1
          · exact Or.inl h1
          · exact Or.inr (List.mem_filter.1 h1).1
        rw [List.all_eq_true]
        intro nv hnv
        rw [decide_eq_true_eq]
        show lookupA db0.all_plugins (PluginVersion.new nv.1 nv.2) ≠ none
        rcases hit' with h1 | h1
        · subst h1
          have := hf ft (List.mem_cons_self _ _) nv hnv
          rw [← hE] at this
          exact this
        · rw [refIntB, List.all_eq_true] at h0
          have := h0 _ h1
          rw [List.all_eq_true] at this
          have := this _ hnv
          rw [decide_eq_true_eq] at this
          exact this
    · intro ft' hft' nv hnv
      exact hf ft' (List.mem_cons_of_mem _ hft') nv hnv

/-- C5 (amended): referential integrity is preserved by `PluginDb::insert`,
which always inserts both sides together; it is preserved by
`db_load_full` only under the additional assumption that every loaded
per-IDE file references only keys present in the loaded entries table
(which files written by `db_save` from an integral database satisfy) —
`db_load_full` itself inserts per-IDE tables without touching the entries
table. -/
theorem c5_referential_integrity :
    (∀ (db : PluginDb) (i : IdeVersion) (n v : String) (e : PluginDbEntry),
        refIntB db = true → refIntB (db.insert i n v e) = true) ∧
    (∀ s : SavedDb,
        (∀ ft ∈ s.ide_files, ∀ nv ∈ ft.2,
            lookupA s.all_plugins_json (PluginVersion.new nv.1 nv.2) ≠ none) →
        refIntB (db_load_full s) = true) := by
  constructor
  · intro db i n v e h
    rw [refIntB, List.all_eq_true] at h
    rw [refIntB, List.all_eq_true]
    intro it hit
    rw [List.all_eq_true]
    intro nv hnv
    rw [decide_eq_true_eq]
    have hall : (db.insert i n v e).all_plugins
        = insertKeep (PluginVersion.new n v) e db.all_plugins := rfl
    have hit' : it = (i, insertOver n v ((lookupA db.ides i).getD [])) ∨ it ∈ db.ides := by
      have hi : (db.insert i n v e).ides
          = insertOver i (insertOver n v ((lookupA db.ides i).getD [])) db.ides := rfl
      rw [hi] at hit
      rcases List.mem_cons.1 hit with h1 | h1
      · exact Or.inl h1
      · exact Or.inr (List.mem_filter.1 h1).1
    rcases hit' with h1 | h1
    · subst h1
      have hnv' : nv = (n, v) ∨
          nv ∈ ((lookupA db.ides i).getD []).filter (fun q => decide (q.1 ≠ n)) :=
        List.mem_cons.1 hnv
      rcases hnv' with h2 | h2
      · subst h2
        rw [hall, lookupA_insertKeep_self]
        simp
      · have h3 : nv ∈ (lookupA db.ides i).getD [] := (List.mem_filter.1 h2).1
        cases hL : lookupA db.ides i with
        | none =>
          rw [hL] at h3
          exact absurd h3 (List.not_mem_nil _)
        | some t0 =>
          rw [hL] at h3
          have hmem : (i, t0) ∈ db.ides := lookupA_mem _ _ _ hL
          have h4 := h _ hmem
          rw [List.all_eq_true] at h4
          have h5 := h4 _ h3
          rw [decide_eq_true_eq] at h5
          rw [hall]
          exact lookupA_insertKeep_ne_none _ _ _ _ h5
    · have h4 := h _ h1
      rw [List.all_eq_true] at h4
      have h5 := h4 _ hnv
      rw [decide_eq_true_eq] at h5
      rw [hall]
      exact lookupA_insertKeep_ne_none _ _ _ _ h5
  · intro s hs
    unfold db_load_full
    exact refIntB_load_aux s.all_plugins_json s.ide_files (db_load s) rfl rfl hs

/-- Counterexample for C5 as stated: the claim includes the loading of
per-IDE tables in `db_load_full` among the integrity-preserving
operations "because both sides are always inserted together", but
`db_load_full` inserts only the per-IDE side.  Loading a directory with
an empty entries table and one per-IDE file referencing a key produces a
state violating referential integrity, although the entries-only load of
the same directory satisfies it. -/
theorem c5_counterexample :
    refIntB (db_load ⟨[], [("clion-2025.1.json", [("x", "1")])]⟩) = true ∧
    refIntB (db_load_full ⟨[], [("clion-2025.1.json", [("x", "1")])]⟩) = false := by
  decide

/-- Witness for C5 at a concrete database and saved directory. -/
theorem c5_referential_integrity_witness :
    refIntB (PluginDb.insert ⟨[], []⟩ ⟨.CLion, "2025.1", "251.1"⟩ "p" "1" ⟨"a", "b"⟩) = true ∧
    refIntB (db_load_full
      ⟨[(PluginVersion.new "p" "1", ⟨"a", "b"⟩)],
       [("clion-2025.1.json", [("p", "1")])]⟩) = true :=
  ⟨c5_referential_integrity.1 ⟨[], []⟩ ⟨.CLion, "2025.1", "251.1"⟩ "p" "1" ⟨"a", "b"⟩ (by decide),
   c5_referential_integrity.2
     ⟨[(PluginVersion.new "p" "1", ⟨"a", "b"⟩)], [("clion-2025.1.json", [("p", "1")])]⟩
     (by decide)⟩

/-! ## Claim C6: injectivity of the plugin key -/

theorem strExt (a b : String) (h : a.data = b.data) : a = b := by
  cases a
  cases b
  cases h
  rfl

theorem strData_append (a b : String) : (a ++ b).data = a.data ++ b.data := by
  cases a
  cases b
  rfl

theorem sep_split_inj : ∀ (l1 l2 r1 r2 : List Char),
    '/' ∉ l1 → '/' ∉ l2 →
    l1 ++ '/' :: '-' :: '-' :: '/' :: r1 = l2 ++ '/' :: '-' :: '-' :: '/' :: r2 →
    l1 = l2 ∧ r1 = r2 := by
  intro l1
  induction l1 with
  | nil =>
    intro l2 r1 r2 _ h2 he
    cases l2 with
    | nil =>
      rw [List.nil_append, List.nil_append] at he
      refine ⟨rfl, ?_⟩
      simpa using he
    | cons c t =>
      rw [List.nil_append, List.cons_append] at he
      injection he with hc _
      subst hc
      exact absurd (List.mem_cons_self _ _) h2
  | cons c t ih =>
    intro l2 r1 r2 h1 h2 he
    cases l2 with
    | nil =>
      rw [List.cons_append, List.nil_append] at he
      injection he with hc _
      rw [hc] at h1
      exact absurd (List.mem_cons_self _ _) h1
    | cons d u =>
      rw [List.cons_append, List.cons_append] at he
      injection he with hcd htl
      have h1' : '/' ∉ t := fun hm => h1 (List.mem_cons_of_mem _ hm)
      have h2' : '/' ∉ u := fun hm => h2 (List.mem_cons_of_mem _ hm)
      obtain ⟨hl, hr⟩ := ih u r1 r2 h1' h2' htl
      exact ⟨by rw [hcd, hl], hr⟩

/-- C6 (amended): `PluginVersion::new` is injective on pairs whose plugin
id contains no slash (true of real marketplace plugin ids); for fully
arbitrary strings the flattened key can collide. -/
theorem c6_pluginkey_injective (n1 v1 n2 v2 : String)
    (h1 : '/' ∉ n1.data) (h2 : '/' ∉ n2.data)
    (he : PluginVersion.new n1 v1 = PluginVersion.new n2 v2) :
    n1 = n2 ∧ v1 = v2 := by
  have hd := congrArg (fun p : PluginVersion => p.raw.data) he
  simp only [PluginVersion.new, PluginVersion.SEPARATOR] at hd
  rw [strData_append, strData_append, strData_append, strData_append,
    List.append_assoc, List.append_assoc] at hd
  obtain ⟨ha, hb⟩ := sep_split_inj n1.data n2.data v1.data v2.data h1 h2 hd
  exact ⟨strExt _ _ ha, strExt _ _ hb⟩

/-- Counterexample for C6 as stated (arbitrary opaque strings): two
distinct (id, version) pairs produce the same key. -/
theorem c6_counterexample :
    PluginVersion.new "a" "--/b" = PluginVersion.new "a/--" "b" ∧
    ¬(("a" : String) = "a/--" ∧ ("--/b" : String) = "b") := by
  decide

/-- Witness for C6 at concrete slash-free plugin ids. -/
theorem c6_pluginkey_injective_witness :
    ("com.example" : String) = "com.example" ∧ ("1.0" : String) = "1.0" :=
  c6_pluginkey_injective "com.example" "1.0" "com.example" "1.0"
    (by decide) (by decide) rfl

/-! ## Claim C7: IdeVersion equality -/

/-- C7 (amended): the derived equality of `IdeVersion` compares all three
fields — product, version and build number; two identities agreeing only
on product and version but differing in build number are unequal. -/
theorem c7_ide_equality (a b : IdeVersion) :
    a = b ↔ a.ide = b.ide ∧ a.version = b.version ∧ a.build_number = b.build_number := by
  constructor
  · intro h
    subst h
    exact ⟨rfl, rfl, rfl⟩
  · intro ⟨h1, h2, h3⟩
    cases a
    cases b
    simp only at h1 h2 h3
    subst h1
    subst h2
    subst h3
    rfl

/-- Counterexample for C7 as stated: equal product and version, different
build numbers, yet the values are unequal under the derived equality. -/
theorem c7_counterexample :
    (IdeVersion.mk .CLion "2025.1" "251.100").ide
        = (IdeVersion.mk .CLion "2025.1" "251.200").ide ∧
    (IdeVersion.mk .CLion "2025.1" "251.100").version
        = (IdeVersion.mk .CLion "2025.1" "251.200").version ∧
    IdeVersion.mk .CLion "2025.1" "251.100" ≠ IdeVersion.mk .CLion "2025.1" "251.200" := by
  decide

/-! ## Claim C8: persistence round trip -/

theorem nix_key_roundtrip (p : IdeProduct) :
    IdeProduct.try_from_nix_key p.nix_key = some p := by
  cases p <;> rfl

theorem stripSuffix_append (a s : List Char) :
    stripSuffixL (a ++ s) s = some a := by
  unfold stripSuffixL
  have hlen : (a ++ s).length - s.length = a.length := by
    rw [List.length_append]
    omega
  rw [if_pos]
  · rw [hlen, List.take_left]
  · constructor
    · rw [List.length_append]; omega
    · rw [hlen, List.drop_left]

theorem splitFirst_sep (sep : Char) (pre rest : List Char) (h : sep ∉ pre) :
    splitFirstL sep (pre ++ sep :: rest) = some (pre, rest) := by
  induction pre with
  | nil =>
    rw [List.nil_append]
    unfold splitFirstL
    rw [if_pos rfl]
  | cons c t ih =>
    rw [List.cons_append]
    unfold splitFirstL
    have hcne : ¬ (c = sep) := fun hc => h (by rw [← hc]; exact List.mem_cons_self c t)
    rw [if_neg hcne]
    rw [ih (fun hm => h (List.mem_cons_of_mem _ hm))]
    rfl

theorem filename_roundtrip (iv : IdeVersion) (h : '-' ∉ iv.version.data) :
    IdeVersion.from_json_filename iv.to_json_filename
      = some ⟨iv.ide, iv.version, ""⟩ := by
  unfold IdeVersion.from_json_filename IdeVersion.to_json_filename
  have hdata : (iv.ide.nix_key ++ "-" ++ iv.version ++ ".json").data
      = (iv.ide.nix_key.data ++ '-' :: iv.version.data) ++ ".json".data := by
    rw [strData_append, strData_append, strData_append,
      List.append_assoc iv.ide.nix_key.data]
    rfl
  rw [hdata, stripSuffix_append]
  have hsplit : rsplitOnceL '-' (iv.ide.nix_key.data ++ '-' :: iv.version.data)
      = some (iv.ide.nix_key.data, iv.version.data) := by
    unfold rsplitOnceL
    have hrev : (iv.ide.nix_key.data ++ '-' :: iv.version.data).reverse
        = iv.version.data.reverse ++ '-' :: iv.ide.nix_key.data.reverse := by
      rw [List.reverse_append, List.reverse_cons, List.append_assoc]
      rfl
    rw [hrev, splitFirst_sep _ _ _ (fun hm => h (List.mem_reverse.1 hm))]
    simp
  show ((match rsplitOnceL '-' (iv.ide.nix_key.data ++ '-' :: iv.version.data) with
    | none => none
    | some pv =>
      match IdeProduct.try_from_nix_key (String.mk pv.1) with
      | none => none
      | some p => some (IdeVersion.mk p (String.mk pv.2) "")) : Option IdeVersion)
      = some (IdeVersion.mk iv.ide iv.version "")
  rw [hsplit]
  show ((match IdeProduct.try_from_nix_key (String.mk iv.ide.nix_key.data) with
    | none => none
    | some p => some (IdeVersion.mk p (String.mk iv.version.data) "")) : Option IdeVersion)
      = some (IdeVersion.mk iv.ide iv.version "")
  have he1 : String.mk iv.ide.nix_key.data = iv.ide.nix_key := rfl
  rw [he1, nix_key_roundtrip]

theorem loadFold_all_plugins :
    ∀ (files : List (String × IdeTable)) (db0 : PluginDb),
      (files.foldl loadIdeStep db0).all_plugins = db0.all_plugins := by
  intro files
  induction files with
  | nil => intro db0; rfl
  | cons ft fts ih =>
    intro db0
    rw [List.foldl_cons, ih]
    unfold loadIdeStep
    cases IdeVersion.from_json_filename ft.1 <;> rfl

theorem loadFold_lookup_of_notmem :
    ∀ (xs : IdeMap) (db0 : PluginDb) (k : IdeVersion),
      (∀ it ∈ xs, '-' ∉ it.1.version.data) →
      k ∉ xs.map (fun it => IdeVersion.mk it.1.ide it.1.version "") →
      lookupA ((xs.map (fun it => (it.1.to_json_filename, it.2))).foldl loadIdeStep db0).ides k
        = lookupA db0.ides k := by
  intro xs
  induction xs with
  | nil => intro db0 k _ _; rfl
  | cons j rest ih =>
    intro db0 k hdash hnm
    rw [List.map_cons, List.foldl_cons]
    have hstep : loadIdeStep db0 (j.1.to_json_filename, j.2)
        = { db0 with ides := insertOver ⟨j.1.ide, j.1.version, ""⟩ j.2 db0.ides } := by
      unfold loadIdeStep
      rw [show (j.1.to_json_filename, j.2).1 = j.1.to_json_filename from rfl,
        filename_roundtrip j.1 (hdash j (List.mem_cons_self _ _))]
    have hnm' : k ∉ List.map (fun it => IdeVersion.mk it.1.ide it.1.version "") rest :=
      fun hm => hnm (by rw [List.map_cons]; exact List.mem_cons_of_mem _ hm)
    rw [hstep, ih _ k (fun it hm => hdash it (List.mem_cons_of_mem _ hm)) hnm']
    have hne : k ≠ IdeVersion.mk j.1.ide j.1.version "" := by
      intro he
      apply hnm
      rw [List.map_cons, he]
      exact List.mem_cons_self _ _
    show lookupA (insertOver (IdeVersion.mk j.1.ide j.1.version "") j.2 db0.ides) k = _
    rw [lookupA_insertOver, if_neg hne]

theorem loadFold_lookup_mem :
    ∀ (xs : IdeMap) (db0 : PluginDb) (i : IdeVersion) (t : IdeTable),
      (∀ it ∈ xs, '-' ∉ it.1.version.data) →
      (xs.map (fun it => IdeVersion.mk it.1.ide it.1.version "")).Nodup →
      lookupA xs i = some t →
      lookupA ((xs.map (fun it => (it.1.to_json_filename, it.2))).foldl loadIdeStep db0).ides
        (IdeVersion.mk i.ide i.version "") = some t := by
  intro xs
  induction xs with
  | nil => intro db0 i t _ _ hl; exact Option.noConfusion hl
  | cons j rest ih =>
    intro db0 i t hdash hnd hl
    rw [List.map_cons, List.foldl_cons]
    have hstep : loadIdeStep db0 (j.1.to_json_filename, j.2)
        = { db0 with ides := insertOver ⟨j.1.ide, j.1.version, ""⟩ j.2 db0.ides } := by
      unfold loadIdeStep
      rw [show (j.1.to_json_filename, j.2).1 = j.1.to_json_filename from rfl,
        filename_roundtrip j.1 (hdash j (List.mem_cons_self _ _))]
    rw [hstep]
    obtain ⟨a, b⟩ := j
    rw [List.map_cons, List.nodup_cons] at hnd
    rw [lookupA_cons] at hl
    by_cases he : i = a
    · subst he
      rw [if_pos rfl] at hl
      injection hl with hl
      subst hl
      rw [loadFold_lookup_of_notmem rest _ _
        (fun it hm => hdash it (List.mem_cons_of_mem _ hm)) hnd.1]
      show lookupA (insertOver (IdeVersion.mk i.ide i.version "") b db0.ides)
        (IdeVersion.mk i.ide i.version "") = some b
      rw [lookupA_insertOver, if_pos rfl]
    · rw [if_neg he] at hl
      exact ih _ i t (fun it hm => hdash it (List.mem_cons_of_mem _ hm)) hnd.2 hl

theorem loadFold_lookup_inv :
    ∀ (xs : IdeMap) (db0 : PluginDb) (k : IdeVersion) (t : IdeTable),
      (∀ it ∈ xs, '-' ∉ it.1.version.data) →
      lookupA ((xs.map (fun it => (it.1.to_json_filename, it.2))).foldl loadIdeStep db0).ides k
        = some t →
      lookupA db0.ides k = some t ∨
      ∃ it ∈ xs, IdeVersion.mk it.1.ide it.1.version "" = k ∧ it.2 = t := by
  intro xs
  induction xs with
  | nil => intro db0 k t _ hl; exact Or.inl hl
  | cons j rest ih =>
    intro db0 k t hdash hl
    rw [List.map_cons, List.foldl_cons] at hl
    have hstep : loadIdeStep db0 (j.1.to_json_filename, j.2)
        = { db0 with ides := insertOver ⟨j.1.ide, j.1.version, ""⟩ j.2 db0.ides } := by
      unfold loadIdeStep
      rw [show (j.1.to_json_filename, j.2).1 = j.1.to_json_filename from rfl,
        filename_roundtrip j.1 (hdash j (List.mem_cons_self _ _))]
    rw [hstep] at hl
    rcases ih _ k t (fun it hm => hdash it (List.mem_cons_of_mem _ hm)) hl with h1 | h1
    · have h2 : lookupA (insertOver ⟨j.1.ide, j.1.version, ""⟩ j.2 db0.ides) k = some t := h1
      rw [lookupA_insertOver] at h2
      by_cases he : k = ⟨j.1.ide, j.1.version, ""⟩
      · rw [if_pos he] at h2
        injection h2 with h2
        exact Or.inr ⟨j, List.mem_cons_self _ _, he.symm, h2⟩
      · rw [if_neg he] at h2
        exact Or.inl h2
    · obtain ⟨it, hm, hk, ht⟩ := h1
      exact Or.inr ⟨it, List.mem_cons_of_mem _ hm, hk, ht⟩

/-- C8 (amended): saving and reloading reproduces the entries table
exactly; and — provided no IDE version string contains a dash and no two
IDE identities share (product, version) — reloading the per-IDE
directory reproduces every per-IDE table, keyed by the identity
reconstructed from the file name, whose build number is left empty, and
every reloaded table originates from a saved one.  (A version string
containing a dash makes the reconstructed file name unparseable, so its
table is silently dropped; see the counterexample.) -/
theorem c8_roundtrip (db : PluginDb)
    (h1 : ∀ it ∈ db.ides, '-' ∉ it.1.version.data)
    (h2 : (db.ides.map (fun it => IdeVersion.mk it.1.ide it.1.version "")).Nodup) :
    (db_load (db_save db)).all_plugins = db.all_plugins ∧
    (db_load_full (db_save db)).all_plugins = db.all_plugins ∧
    (∀ (i : IdeVersion) (t : IdeTable), lookupA db.ides i = some t →
        lookupA (db_load_full (db_save db)).ides (IdeVersion.mk i.ide i.version "")
          = some t) ∧
    (∀ (k : IdeVersion) (t : IdeTable),
        lookupA (db_load_full (db_save db)).ides k = some t →
        ∃ it ∈ db.ides, IdeVersion.mk it.1.ide it.1.version "" = k ∧ it.2 = t) := by
  refine ⟨rfl, ?_, ?_, ?_⟩
  · show ((db.ides.map (fun it => (it.1.to_json_filename, it.2))).foldl loadIdeStep
      (db_load (db_save db))).all_plugins = db.all_plugins
    rw [loadFold_all_plugins]
    rfl
  · intro i t hl
    exact loadFold_lookup_mem db.ides (db_load (db_save db)) i t h1 h2 hl
  · intro k t hl
    have := loadFold_lookup_inv db.ides (db_load (db_save db)) k t h1 hl
    rcases this with h3 | h3
    · exact Option.noConfusion h3
    · exact h3

/-- Counterexample for C8 as stated: an IDE version string containing a
dash is producible by the system (it passes the release-series filter),
but its per-IDE file name does not reparse, so the reloaded `perIde`
table is empty where the original was not. -/
theorem c8_counterexample :
    allowed_build_version "2025.1-EAP" = true ∧
    (db_load_full (db_save
      ⟨[], [(⟨.CLion, "2025.1-EAP", "251.1"⟩, [("p", "1")])]⟩)).ides = [] ∧
    (PluginDb.mk [] [(⟨.CLion, "2025.1-EAP", "251.1"⟩, [("p", "1")])]).ides ≠ [] := by
  decide

/-- Witness for C8 at a concrete two-IDE database. -/
theorem c8_roundtrip_witness :
    (db_load (db_save c8WitnessDb)).all_plugins = c8WitnessDb.all_plugins ∧
    (db_load_full (db_save c8WitnessDb)).all_plugins = c8WitnessDb.all_plugins ∧
    (∀ (i : IdeVersion) (t : IdeTable), lookupA c8WitnessDb.ides i = some t →
        lookupA (db_load_full (db_save c8WitnessDb)).ides (IdeVersion.mk i.ide i.version "")
          = some t) ∧
    (∀ (k : IdeVersion) (t : IdeTable),
        lookupA (db_load_full (db_save c8WitnessDb)).ides k = some t →
        ∃ it ∈ c8WitnessDb.ides, IdeVersion.mk it.1.ide it.1.version "" = k ∧ it.2 = t) :=
  c8_roundtrip c8WitnessDb (by decide) (by decide)

/-! ## Claims C9, C10: the Content-Hash Resolver -/

/-- C9: negative-result caching in `get_db_entry`.  For a key absent from
the live entries table and from the 404 cache: a not-found probe records
the key into the cache and returns `none` rather than an error, having
probed the network; any subsequent resolution of a key already in the
cache returns `none` without issuing a network probe — so two
resolutions of a not-found key probe exactly once — and any other
non-success probe status is a hard error for the key. -/
theorem c9_negative_result_caching (allP : EntryMap) (fof : List PluginVersion)
    (pk v : String) (hasher1 : Bool → Bool → Option String)
    (hdb : lookupA allP (PluginVersion.new pk v) = none)
    (hfof : PluginVersion.new pk v ∉ fof) :
    get_db_entry allP fof pk v .notFound hasher1
      = ⟨.ok none, PluginVersion.new pk v :: fof, true⟩ ∧
    (∀ (probe2 : ProbeResult) (hasher2 : Bool → Bool → Option String),
      get_db_entry allP (PluginVersion.new pk v :: fof) pk v probe2 hasher2
        = ⟨.ok none, PluginVersion.new pk v :: fof, false⟩) ∧
    (∀ c : Nat, get_db_entry allP fof pk v (.failed c) hasher1 = ⟨.err, fof, true⟩) := by
  refine ⟨?_, ?_, ?_⟩
  · simp only [get_db_entry]
    rw [hdb, if_neg hfof]
  · intro probe2 hasher2
    simp only [get_db_entry]
    rw [hdb, if_pos (List.mem_cons_self _ _)]
  · intro c
    simp only [get_db_entry]
    rw [hdb, if_neg hfof]

/-- Witness for C9 at a concrete empty database and cache. -/
theorem c9_negative_result_caching_witness :
    get_db_entry [] [] "p" "1" .notFound (fun _ _ => none)
      = ⟨.ok none, [PluginVersion.new "p" "1"], true⟩ ∧
    (∀ (probe2 : ProbeResult) (hasher2 : Bool → Bool → Option String),
      get_db_entry [] [PluginVersion.new "p" "1"] "p" "1" probe2 hasher2
        = ⟨.ok none, [PluginVersion.new "p" "1"], false⟩) ∧
    (∀ c : Nat, get_db_entry [] [] "p" "1" (.failed c) (fun _ _ => none)
      = ⟨.err, [], true⟩) :=
  c9_negative_result_caching [] [] "p" "1" (fun _ _ => none) (by decide) (by decide)

/-- C10 (amended): on a successful existence probe for an uncached key
whose query-stripped final URL does not begin with the marketplace
prefix, `get_db_entry` panics via `expect` provided the hashing pipeline
succeeds; if the hashing pipeline fails the call returns an ordinary
error first (the hash is computed before the prefix is stripped).  In
all cases, returning an entry is reachable only when the URL starts with
the prefix. -/
theorem c10_prefix_panic (allP : EntryMap) (fof : List PluginVersion)
    (pk v url : String) (hasher : Bool → Bool → Option String)
    (hdb : lookupA allP (PluginVersion.new pk v) = none)
    (hfof : PluginVersion.new pk v ∉ fof) :
    (removeStartL PREFIX_OF_ALL_URLS.data (stripQueryL url.data) = none →
      (hasher (!endsWithL (stripQueryL url.data) ".jar".data)
          (endsWithL (stripQueryL url.data) ".jar".data) = none →
        get_db_entry allP fof pk v (.success url) hasher = ⟨.err, fof, true⟩) ∧
      (∀ hsh, hasher (!endsWithL (stripQueryL url.data) ".jar".data)
          (endsWithL (stripQueryL url.data) ".jar".data) = some hsh →
        get_db_entry allP fof pk v (.success url) hasher = ⟨.panicked, fof, true⟩)) ∧
    (∀ e, (get_db_entry allP fof pk v (.success url) hasher).result = .ok (some e) →
      (removeStartL PREFIX_OF_ALL_URLS.data (stripQueryL url.data)).isSome = true) := by
  constructor
  · intro hpre
    constructor
    · intro hh
      simp only [get_db_entry]
      rw [hdb, if_neg hfof, hh]
    · intro hsh hh
      simp only [get_db_entry]
      rw [hdb, if_neg hfof, hh, hpre]
  · intro e hres
    cases hr : removeStartL PREFIX_OF_ALL_URLS.data (stripQueryL url.data) with
    | some r => rfl
    | none =>
      exfalso
      simp only [get_db_entry] at hres
      rw [hdb, if_neg hfof] at hres
      cases hh : hasher (!endsWithL (stripQueryL url.data) ".jar".data)
          (endsWithL (stripQueryL url.data) ".jar".data) with
      | none =>
        rw [hh] at hres
        simp at hres
      | some hsh =>
        rw [hh, hr] at hres
        simp at hres

/-- Counterexample for C10 as stated: with a successful probe resolving
to a URL outside the marketplace prefix but a failing hashing pipeline,
`get_db_entry` returns an error value instead of panicking. -/
theorem c10_counterexample :
    get_db_entry [] [] "p" "1" (.success "https://example.org/plugin.zip")
        (fun _ _ => none) = ⟨.err, [], true⟩ ∧
    removeStartL PREFIX_OF_ALL_URLS.data
        (stripQueryL "https://example.org/plugin.zip".data) = none ∧
    DbEntryResult.err ≠ DbEntryResult.panicked := by
  decide

/-- Witness for C10 at a concrete bad-prefix URL with a succeeding hash
pipeline. -/
theorem c10_prefix_panic_witness :
    (removeStartL PREFIX_OF_ALL_URLS.data
        (stripQueryL "https://example.org/plugin.zip".data) = none →
      ((fun (_ _ : Bool) => some "hsh")
          (!endsWithL (stripQueryL "https://example.org/plugin.zip".data) ".jar".data)
          (endsWithL (stripQueryL "https://example.org/plugin.zip".data) ".jar".data) = none →
        get_db_entry [] [] "p" "1" (.success "https://example.org/plugin.zip")
          (fun _ _ => some "hsh") = ⟨.err, [], true⟩) ∧
      (∀ hsh, (fun (_ _ : Bool) => some "hsh")
          (!endsWithL (stripQueryL "https://example.org/plugin.zip".data) ".jar".data)
          (endsWithL (stripQueryL "https://example.org/plugin.zip".data) ".jar".data)
            = some hsh →
        get_db_entry [] [] "p" "1" (.success "https://example.org/plugin.zip")
          (fun _ _ => some "hsh") = ⟨.panicked, [], true⟩)) ∧
    (∀ e, (get_db_entry [] [] "p" "1" (.success "https://example.org/plugin.zip")
        (fun _ _ => some "hsh")).result = .ok (some e) →
      (removeStartL PREFIX_OF_ALL_URLS.data
        (stripQueryL "https://example.org/plugin.zip".data)).isSome = true) :=
  c10_prefix_panic [] [] "p" "1" "https://example.org/plugin.zip"
    (fun _ _ => some "hsh") (by decide) (by decide)

end NixJbPlugins
